import Mathlib

/-!
Verification of the DD60 font-atlas core pipeline: CDC character-ROM decoding
into vector samples, vector simplification, the physics (filtering) pipeline,
coordinate mapping, and Gaussian spot accumulation.

Numeric values carried by the pipeline are modelled as exact rationals; ROM
grid coordinates as integers.  The transcendental `Math.exp` used by the
kernel builder is threaded through as an explicit function parameter `expf`,
since none of the verified properties depend on its values.
-/

namespace DD60

/-- A decoded vector sample: grid coordinates and beam intensity (0 or 1),
mirroring the `[x, y, beam]` triples of `rom/decoder.js`. -/
structure Vec where
  x : ℤ
  y : ℤ
  beam : ℕ
deriving DecidableEq

/-- Maximum coordinate value for the CDC character grid (`CDC_CHAR_MAX_COORD`). -/
def CDC_CHAR_MAX_COORD : ℤ := 6

/-- Decoder running state: position, beam intensity and the two direction
signs, exactly the mutable locals of `binaryToVector`. -/
structure DecState where
  currentX : ℤ
  currentY : ℤ
  beamIntensity : ℕ
  horizontalDirection : ℤ
  verticalDirection : ℤ
deriving DecidableEq

/-- Extract flag bit `n` of a control word, as in `(binary >> n) & 1`. -/
def flagBit (binary : ℕ) (n : ℕ) : Bool :=
  (binary >>> n) &&& 1 == 1

/-- One iteration of the `binaryToVector` loop body acting on the running
state (vertical rule, then horizontal rule, then beam toggle). -/
def decodeStep (st : DecState) (binary : ℕ) : DecState :=
  let V1 := flagBit binary 4
  let V2 := flagBit binary 3
  let H1 := flagBit binary 2
  let H2 := flagBit binary 1
  let U := flagBit binary 0
  let st1 :=
    if V1 && V2 then { st with verticalDirection := -st.verticalDirection }
    else if V1 then { st with currentY := st.currentY + st.verticalDirection }
    else if V2 then { st with currentY := st.currentY + 2 * st.verticalDirection }
    else st
  let st2 :=
    if H1 && H2 then { st1 with horizontalDirection := -st1.horizontalDirection }
    else if H1 then { st1 with currentX := st1.currentX + st1.horizontalDirection }
    else if H2 then { st1 with currentX := st1.currentX + 2 * st1.horizontalDirection }
    else st1
  if U then
    { st2 with beamIntensity := if st2.beamIntensity ≠ 0 then 0 else 1 }
  else st2

/-- The bounds validation of `binaryToVector` before a sample is pushed. -/
def coordInBounds (x y : ℤ) : Bool :=
  decide (0 ≤ x) && decide (x ≤ CDC_CHAR_MAX_COORD) &&
  decide (0 ≤ y) && decide (y ≤ CDC_CHAR_MAX_COORD)

/-- The `binaryToVector` loop: step the state for each word, emitting the
sample only when the resulting position is within bounds. -/
def binaryToVectorAux (st : DecState) : List ℕ → List Vec
  | [] => []
  | binary :: rest =>
    let st' := decodeStep st binary
    if coordInBounds st'.currentX st'.currentY then
      ⟨st'.currentX, st'.currentY, st'.beamIntensity⟩ :: binaryToVectorAux st' rest
    else
      binaryToVectorAux st' rest

/-- Initial decoder state per the CDC 6602 specification comment. -/
def initDecState : DecState := ⟨0, 0, 0, 1, 1⟩

/-- Source function `binaryToVector` from `rom/decoder.js`. -/
def binaryToVector (binaryData : List ℕ) : List Vec :=
  binaryToVectorAux initDecState binaryData

/-- Reference-decoder state, following the spec wording for claim C1:
position, beam state (on/off), and two direction signs. -/
structure RefState where
  posX : ℤ
  posY : ℤ
  beamOn : Bool
  hSign : ℤ
  vSign : ℤ
deriving DecidableEq

/-- One word of the reference delta-decoding algorithm as the spec words it:
both vertical bits flip the vertical sign with no move, only the "1" bit
moves 1 unit, only the "2" bit moves 2 units; symmetrically for horizontal;
then the beam-toggle bit flips the beam state. -/
def refStep (st : RefState) (word : ℕ) : RefState :=
  let v1 := flagBit word 4
  let v2 := flagBit word 3
  let h1 := flagBit word 2
  let h2 := flagBit word 1
  let u := flagBit word 0
  let stV :=
    if v1 && v2 then { st with vSign := -st.vSign }
    else if v1 && !v2 then { st with posY := st.posY + 1 * st.vSign }
    else if !v1 && v2 then { st with posY := st.posY + 2 * st.vSign }
    else st
  let stH :=
    if h1 && h2 then { stV with hSign := -stV.hSign }
    else if h1 && !h2 then { stV with posX := stV.posX + 1 * stV.hSign }
    else if !h1 && h2 then { stV with posX := stV.posX + 2 * stV.hSign }
    else stV
  if u then { stH with beamOn := !stH.beamOn } else stH

/-- Reference decoder exactly as claim C1 states it: emits `(x, y, beamState)`
for every row, with the beam state taken after the toggle. -/
def refDecodeAll (st : RefState) : List ℕ → List Vec
  | [] => []
  | w :: ws =>
    let st' := refStep st w
    ⟨st'.posX, st'.posY, if st'.beamOn then 1 else 0⟩ :: refDecodeAll st' ws

/-- Initial reference state: position (0,0), beam off, both signs +1. -/
def initRefState : RefState := ⟨0, 0, false, 1, 1⟩

/-- The reference delta-decoding algorithm of claim C1 (emits every row). -/
def binaryToVectorRef (ws : List ℕ) : List Vec :=
  refDecodeAll initRefState ws

/-- Reference decoder amended with the edge case of section 4.1 of the spec:
a row sample is emitted only when the resulting position lies within [0,6]
on both axes. -/
def refDecodeBounded (st : RefState) : List ℕ → List Vec
  | [] => []
  | w :: ws =>
    let st' := refStep st w
    if 0 ≤ st'.posX ∧ st'.posX ≤ 6 ∧ 0 ≤ st'.posY ∧ st'.posY ≤ 6 then
      ⟨st'.posX, st'.posY, if st'.beamOn then 1 else 0⟩ :: refDecodeBounded st' ws
    else
      refDecodeBounded st' ws

/-- The reference algorithm of claim C1 amended with the out-of-bounds drop. -/
def binaryToVectorRefBounded (ws : List ℕ) : List Vec :=
  refDecodeBounded initRefState ws

/-- Source function `trimBeamOff` from `rom/decoder.js`: keep from the first beam=1 entry to
the last beam=1 entry (empty when none exists). -/
def trimBeamOff (vectorData : List Vec) : List Vec :=
  match vectorData.findIdx? (fun v => v.beam == 1) with
  | none => []
  | some firstOn =>
    let lastOn := vectorData.length - 1 - vectorData.reverse.findIdx (fun v => v.beam == 1)
    (vectorData.drop firstOn).take (lastOn + 1 - firstOn)

/-- The `deduplicateAdjacent` loop: `prev` is the last element kept so far;
keep the current element when any of the three fields differs. -/
def dedupFrom (prev : Vec) : List Vec → List Vec
  | [] => []
  | curr :: rest =>
    if curr.x ≠ prev.x ∨ curr.y ≠ prev.y ∨ curr.beam ≠ prev.beam then
      curr :: dedupFrom curr rest
    else
      dedupFrom prev rest

/-- Source function `deduplicateAdjacent` from `rom/decoder.js`. -/
def deduplicateAdjacent : List Vec → List Vec
  | [] => []
  | first :: rest => first :: dedupFrom first rest

/-- Source function `simplifyVector` from `rom/decoder.js`: it only deduplicates. -/
def simplifyVector (vectorData : List Vec) : List Vec :=
  deduplicateAdjacent vectorData

/-- View a reference-decoder state as a decoder state (beam as 0/1). -/
def refAsDec (st : RefState) : DecState :=
  ⟨st.posX, st.posY, if st.beamOn then 1 else 0, st.hSign, st.vSign⟩

/-- A filtered beam position `(x, y, z)` as produced by `physics.js`. -/
structure FilteredPosition where
  x : ℚ
  y : ℚ
  z : ℚ
deriving DecidableEq

/-- Biquad filter coefficients (`BiquadCoeffs` in `physics.js`). -/
structure BiquadCoeffs where
  b0 : ℚ
  b1 : ℚ
  b2 : ℚ
  a1 : ℚ
  a2 : ℚ
deriving DecidableEq

/-- Biquad filter state for one axis (`BiquadState` in `physics.js`). -/
structure BiquadState where
  x1 : ℚ
  x2 : ℚ
  y1 : ℚ
  y2 : ℚ
deriving DecidableEq

/-- Source function `createBiquadState` from `physics.js`. -/
def createBiquadState (initialValue : ℚ) : BiquadState :=
  ⟨initialValue, initialValue, initialValue, initialValue⟩

/-- Source function `applyBiquad` from `physics.js`, in value-in/value-out form: returns the
output sample together with the shifted state. -/
def applyBiquad (input : ℚ) (state : BiquadState) (coeffs : BiquadCoeffs) :
    ℚ × BiquadState :=
  let output := coeffs.b0 * input + coeffs.b1 * state.x1 + coeffs.b2 * state.x2
                - coeffs.a1 * state.y1 - coeffs.a2 * state.y2
  (output, ⟨input, state.x1, output, state.y1⟩)

/-- Source function `applyIIR` from `physics.js` (the one-pole filter). -/
def applyIIR (input prev retention : ℚ) : ℚ :=
  (1 - retention) * input + retention * prev

/-- The optional parameters object of `processCharacterPhysics`
(`options.yCoeffs`, `options.xGain` defaulting to 1, `options.yGain`
defaulting to 1). -/
structure PhysicsOptions where
  yCoeffs : Option BiquadCoeffs := none
  xGain : Option ℚ := none
  yGain : Option ℚ := none

/-- The inner subsample loop of `processCharacterPhysics`: replicate one
scaled row `n` times through the filters, threading filter state. -/
def subsampleSteps (scaledX scaledY beam : ℚ) (xCoeffs yCoeffs : BiquadCoeffs)
    (xGain yGain retentionZ : ℚ) :
    ℕ → BiquadState → BiquadState → ℚ →
      List FilteredPosition × BiquadState × BiquadState × ℚ
  | 0, xState, yState, zState => ([], xState, yState, zState)
  | n + 1, xState, yState, zState =>
    let fx := applyBiquad scaledX xState xCoeffs
    let fy := applyBiquad scaledY yState yCoeffs
    let filteredX := fx.1 * xGain
    let filteredY := fy.1 * yGain
    let z := applyIIR beam zState retentionZ
    let rest := subsampleSteps scaledX scaledY beam xCoeffs yCoeffs xGain yGain
      retentionZ n fx.2 fy.2 z
    (⟨filteredX, filteredY, z⟩ :: rest.1, rest.2)

/-- The outer row loop of `processCharacterPhysics`: scale each raw row by
`characterScale` and push it through the subsample loop. -/
def physicsRows (subsampleFactor : ℕ) (xCoeffs yCoeffs : BiquadCoeffs)
    (xGain yGain retentionZ characterScale : ℚ) :
    List (ℚ × ℚ × ℚ) → BiquadState → BiquadState → ℚ → List FilteredPosition
  | [], _, _, _ => []
  | (x, y, beam) :: rest, xState, yState, zState =>
    let scaledX := x * characterScale
    let scaledY := y * characterScale
    let step := subsampleSteps scaledX scaledY beam xCoeffs yCoeffs xGain yGain
      retentionZ subsampleFactor xState yState zState
    step.1 ++ physicsRows subsampleFactor xCoeffs yCoeffs xGain yGain retentionZ
      characterScale rest step.2.1 step.2.2.1 step.2.2.2

/-- Source function `processCharacterPhysics` from `physics.js`: empty input yields an empty
output; otherwise the filter states are initialized to the first scaled
sample and every row is replicated `subsampleFactor` times through the
filters. -/
def processCharacterPhysics (vectorData : List (ℚ × ℚ × ℚ)) (subsampleFactor : ℕ)
    (xyCoeffs : BiquadCoeffs) (retentionZ characterScale : ℚ)
    (options : PhysicsOptions) : List FilteredPosition :=
  match vectorData with
  | [] => []
  | firstPos :: _ =>
    let xCoeffs := xyCoeffs
    let yCoeffs := options.yCoeffs.getD xyCoeffs
    let xGain := options.xGain.getD 1
    let yGain := options.yGain.getD 1
    let xState := createBiquadState (firstPos.1 * characterScale)
    let yState := createBiquadState (firstPos.2.1 * characterScale)
    let zState := firstPos.2.2
    physicsRows subsampleFactor xCoeffs yCoeffs xGain yGain retentionZ
      characterScale vectorData xState yState zState

/-- Constant `BASE_CELL_SIZE` from `config.js`. -/
def BASE_CELL_SIZE : ℚ := 8

/-- Source function `scaledToCanvas` from `physics.js`: a pure function of its arguments. -/
def scaledToCanvas (scaledX scaledY cellPixelSize characterScale
    originOffsetX originOffsetY : ℚ) : ℚ × ℚ :=
  let pixelsPerUnit := cellPixelSize / (BASE_CELL_SIZE * characterScale)
  let offsetX := originOffsetX * characterScale * pixelsPerUnit
  let offsetY := originOffsetY * characterScale * pixelsPerUnit
  let pixelX := scaledX * pixelsPerUnit
  let pixelY := scaledY * pixelsPerUnit
  (offsetX + pixelX, cellPixelSize - offsetY - pixelY)

/-- Coordinate mapper as claim C5 words it: the origin offset is scaled by
exactly the pixels-per-unit factor (not additionally by characterScale). -/
def claimScaledToCanvas (x y cellPixelSize characterScale
    originOffsetX originOffsetY : ℚ) : ℚ × ℚ :=
  let pixelsPerUnit := cellPixelSize / (8 * characterScale)
  let offsetX := originOffsetX * pixelsPerUnit
  let offsetY := originOffsetY * pixelsPerUnit
  let scX := x * pixelsPerUnit
  let scY := y * pixelsPerUnit
  (offsetX + scX, cellPixelSize - offsetY - scY)

/-- Constant `GAUSSIAN.sigmaMult` from `gaussianMode.js`. -/
def sigmaMult : ℚ := 1 / 2

/-- Constant `GAUSSIAN.sigmasCoverage` from `gaussianMode.js`. -/
def sigmasCoverage : ℚ := 3

/-- Constant `PHYSICS_DEFAULTS.beamThreshold` from `physics.js`. -/
def beamThreshold : ℚ := 1 / 100

/-- The `referenceSigma` constant of `renderCharacterGaussian`. -/
def referenceSigma : ℚ := 1

/-- The kernel record of `gaussianMode.js`, holding weights, radius and
sigma. -/
structure GaussKernel where
  weights : List ℚ
  radius : ℕ
  sigma : ℚ
deriving DecidableEq

/-- The body of `getGaussianKernel` on a cache miss: radius is the ceiling
of 3 times sigma and the weight at offset (dx, dy) is
expf(-(dx^2 + dy^2)/(2 sigma^2)), stored row-major; `expf` stands for
`Math.exp`. -/
def computeGaussianKernel (expf : ℚ → ℚ) (sigma : ℚ) : GaussKernel :=
  let radius : ℕ := (⌈sigma * sigmasCoverage⌉).toNat
  let size := radius * 2 + 1
  let twoSigmaSq := 2 * sigma * sigma
  let weights := ((List.range size).map (fun row =>
    (List.range size).map (fun col =>
      let dy : ℤ := (row : ℤ) - (radius : ℤ)
      let dx : ℤ := (col : ℤ) - (radius : ℤ)
      let distSq : ℚ := (dx : ℚ) * (dx : ℚ) + (dy : ℚ) * (dy : ℚ)
      expf (-distSq / twoSigmaSq)))).flatten
  ⟨weights, radius, sigma⟩

/-- Source function `getGaussianKernel` from `gaussianMode.js` with the module-level mutable
cache made explicit: returns the cached kernel when the cached sigma is
within 0.001 of the request, else a fresh computation; also returns the new
cache contents. -/
def getGaussianKernel (expf : ℚ → ℚ) (cache : Option GaussKernel) (sigma : ℚ) :
    GaussKernel × Option GaussKernel :=
  match cache with
  | some k =>
    if |k.sigma - sigma| < 1 / 1000 then (k, some k)
    else
      let fresh := computeGaussianKernel expf sigma
      (fresh, some fresh)
  | none =>
    let fresh := computeGaussianKernel expf sigma
    (fresh, some fresh)

/-- A sequence of `getGaussianKernel` calls threading the cache. -/
def runKernelCalls (expf : ℚ → ℚ) : Option GaussKernel → List ℚ → List GaussKernel
  | _, [] => []
  | cache, sigma :: rest =>
    let r := getGaussianKernel expf cache sigma
    r.1 :: runKernelCalls expf r.2 rest

/-- The accumulation loop of `renderCharacterGaussian` (lines 188-206 of
`gaussianMode.js`), recorded as the list of `(centerX, centerY, intensity)`
arguments passed to `accumulateGaussian`: samples below the beam threshold
are skipped, the rest are mapped through `scaledToCanvas` and scaled by
brightness and the energy normalization. -/
def spotCallsLoop (cellPixelSize characterScale originOffsetX originOffsetY
    brightness energyNormalization : ℚ) :
    List FilteredPosition → List (ℚ × ℚ × ℚ)
  | [] => []
  | pos :: rest =>
    if pos.z < beamThreshold then
      spotCallsLoop cellPixelSize characterScale originOffsetX originOffsetY
        brightness energyNormalization rest
    else
      let c := scaledToCanvas pos.x pos.y cellPixelSize characterScale
        originOffsetX originOffsetY
      let intensity := pos.z * brightness * energyNormalization
      (c.1, c.2, intensity) :: spotCallsLoop cellPixelSize characterScale
        originOffsetX originOffsetY brightness energyNormalization rest

/-- The accumulate-call list of a full character render: sigma is
beamWidth times sigmaMult and the energy normalization is
referenceSigma^2 / sigma^2, as in `renderCharacterGaussian`. -/
def gaussianSpotCalls (filteredPositions : List FilteredPosition)
    (cellPixelSize characterScale originOffsetX originOffsetY beamWidth
    brightness : ℚ) : List (ℚ × ℚ × ℚ) :=
  let sigma := beamWidth * sigmaMult
  let energyNormalization := (referenceSigma * referenceSigma) / (sigma * sigma)
  spotCallsLoop cellPixelSize characterScale originOffsetX originOffsetY
    brightness energyNormalization filteredPositions

/-- The inner `kx` loop of `accumulateGaussian`: add the weighted spot into
row `py` of the flat buffer, skipping columns outside [0, width). -/
def gaussAccumRow (buffer : ℤ → ℚ) (width : ℤ) (py startX : ℤ) (intensity : ℚ)
    (weights : List ℚ) (rowBase : ℕ) : ℕ → ℤ → ℚ
  | 0 => buffer
  | kx + 1 =>
    let buf := gaussAccumRow buffer width py startX intensity weights rowBase kx
    let px := startX + (kx : ℤ)
    if px < 0 ∨ width ≤ px then buf
    else
      let weight := weights.getD (rowBase + kx) 0
      let bufIdx := py * width + px
      Function.update buf bufIdx (buf bufIdx + intensity * weight)

/-- The outer `ky` loop of `accumulateGaussian`: rows outside [0, height)
are skipped entirely. -/
def gaussAccumRows (buffer : ℤ → ℚ) (width height startY startX : ℤ)
    (intensity : ℚ) (weights : List ℚ) (kernelSize : ℕ) : ℕ → ℤ → ℚ
  | 0 => buffer
  | ky + 1 =>
    let buf := gaussAccumRows buffer width height startY startX intensity weights
      kernelSize ky
    let py := startY + (ky : ℤ)
    if py < 0 ∨ height ≤ py then buf
    else gaussAccumRow buf width py startX intensity weights (ky * kernelSize)
      kernelSize

/-- Source function `accumulateGaussian` from `gaussianMode.js`, over a flat buffer indexed
by `py * width + px` as in the source. -/
def accumulateGaussian (buffer : ℤ → ℚ) (width height : ℤ) (cx cy : ℚ)
    (intensity : ℚ) (kernel : GaussKernel) : ℤ → ℚ :=
  let radius : ℤ := kernel.radius
  let kernelSize : ℕ := kernel.radius * 2 + 1
  let startX := ⌊cx⌋ - radius
  let startY := ⌊cy⌋ - radius
  gaussAccumRows buffer width height startY startX intensity kernel.weights
    kernelSize kernelSize

/-- A concrete stand-in for `Math.exp` (the cache logic never looks at
weight values). -/
def expOne : ℚ → ℚ := fun _ => 1

theorem vecNe_iff (a b : Vec) : (a.x ≠ b.x ∨ a.y ≠ b.y ∨ a.beam ≠ b.beam) ↔ a ≠ b := by
  cases a; cases b
  simp only [Vec.mk.injEq, ne_eq]
  tauto

theorem dedupFrom_sublist (prev : Vec) (l : List Vec) : (dedupFrom prev l).Sublist l := by
  induction l generalizing prev with
  | nil => simp [dedupFrom]
  | cons curr rest ih =>
    simp only [dedupFrom]
    split
    · exact (ih curr).cons₂ curr
    · exact (ih prev).cons curr

theorem chain_dedupFrom (prev : Vec) (l : List Vec) :
    List.Chain' (· ≠ ·) (prev :: dedupFrom prev l) := by
  induction l generalizing prev with
  | nil => simp [dedupFrom]
  | cons curr rest ih =>
    simp only [dedupFrom]
    split
    · rename_i h
      rw [List.chain'_cons]
      exact ⟨Ne.symm ((vecNe_iff curr prev).mp h), ih curr⟩
    · exact ih prev

theorem dedupFrom_eq_of_chain (l : List Vec) : ∀ prev : Vec,
    List.Chain' (· ≠ ·) (prev :: l) → dedupFrom prev l = l := by
  induction l with
  | nil => intro prev _; rfl
  | cons curr rest ih =>
    intro prev h
    rw [List.chain'_cons] at h
    rw [dedupFrom, if_pos ((vecNe_iff curr prev).mpr (Ne.symm h.1)), ih curr h.2]

theorem decodeStep_refAsDec (st : RefState) (w : ℕ) :
    decodeStep (refAsDec st) w = refAsDec (refStep st w) := by
  obtain ⟨px, py, b, hs, vs⟩ := st
  simp only [decodeStep, refStep, refAsDec]
  cases hv1 : flagBit w 4 <;> cases hv2 : flagBit w 3 <;>
  cases hh1 : flagBit w 2 <;> cases hh2 : flagBit w 1 <;>
  cases hu : flagBit w 0 <;> cases b <;>
    simp [one_mul]

theorem coordInBounds_iff (x y : ℤ) :
    coordInBounds x y = true ↔ (0 ≤ x ∧ x ≤ 6 ∧ 0 ≤ y ∧ y ≤ 6) := by
  simp [coordInBounds, CDC_CHAR_MAX_COORD, and_assoc]

theorem binaryToVectorAux_eq_refBounded (ws : List ℕ) : ∀ st : RefState,
    binaryToVectorAux (refAsDec st) ws = refDecodeBounded st ws := by
  induction ws with
  | nil => intro st; rfl
  | cons w rest ih =>
    intro st
    simp only [binaryToVectorAux, refDecodeBounded]
    rw [decodeStep_refAsDec]
    simp only [refAsDec]
    have hcond := coordInBounds_iff (refStep st w).posX (refStep st w).posY
    by_cases hb : 0 ≤ (refStep st w).posX ∧ (refStep st w).posX ≤ 6 ∧
        0 ≤ (refStep st w).posY ∧ (refStep st w).posY ≤ 6
    · rw [if_pos (hcond.mpr hb), if_pos hb]
      exact congrArg _ (ih (refStep st w))
    · rw [if_neg (fun hc => hb (hcond.mp hc)), if_neg hb]
      exact ih (refStep st w)

theorem mem_binaryToVectorAux_bounds (input : List ℕ) : ∀ (st : DecState) (v : Vec),
    v ∈ binaryToVectorAux st input → 0 ≤ v.x ∧ v.x ≤ 6 ∧ 0 ≤ v.y ∧ v.y ≤ 6 := by
  induction input with
  | nil => intro st v h; simp [binaryToVectorAux] at h
  | cons w ws ih =>
    intro st v h
    simp only [binaryToVectorAux] at h
    split at h
    · rename_i hb
      rcases List.mem_cons.mp h with h1 | h2
      · subst h1
        exact (coordInBounds_iff _ _).mp hb
      · exact ih _ _ h2
    · exact ih _ _ h

theorem binaryToVectorAux_append (st : DecState) (ws1 ws2 : List ℕ) :
    binaryToVectorAux st (ws1 ++ ws2) =
      binaryToVectorAux st ws1 ++ binaryToVectorAux (ws1.foldl decodeStep st) ws2 := by
  induction ws1 generalizing st with
  | nil => simp [binaryToVectorAux]
  | cons w ws ih =>
    simp only [List.cons_append, binaryToVectorAux, List.foldl_cons]
    split
    · simp [ih]
    · exact ih _

/-- C1 counterexample: on the word list [24, 16] (toggle vertical direction,
then move 1 unit vertically, now downward to y = -1) the decoder emits one
sample while the reference algorithm of the claim, which emits a sample for
every row, emits two — so the decoder does not equal that reference on every
input sequence. -/
theorem binaryToVector_ne_ref_at_24_16 :
    binaryToVector [24, 16] ≠ binaryToVectorRef [24, 16] := by decide

/-- C1 (amended): for every input sequence of row words, the decoder equals
the reference delta-decoding algorithm amended so that a row sample is
emitted only when the resulting position lies within [0,6] on both axes
(out-of-bounds rows are dropped); the per-word vertical, horizontal and
beam-toggle rules are exactly those of the claim. -/
theorem binaryToVector_eq_refBounded (ws : List ℕ) :
    binaryToVector ws = binaryToVectorRefBounded ws := by
  have h : initDecState = refAsDec initRefState := rfl
  rw [binaryToVector, binaryToVectorRefBounded, h, binaryToVectorAux_eq_refBounded]

/-- C2: when a decoded row position falls outside [0,6] on either axis the
decoder emits nothing for that row and continues decoding the remaining rows
from the stepped state (the decoder is a total function, so it never throws);
consequently every emitted sample has both coordinates within [0,6]. -/
theorem decoder_drops_oob_and_bounds_output (st : DecState) (w : ℕ) (ws : List ℕ)
    (v : Vec) (input : List ℕ) :
    (coordInBounds (decodeStep st w).currentX (decodeStep st w).currentY = false →
      binaryToVectorAux st (w :: ws) = binaryToVectorAux (decodeStep st w) ws) ∧
    (v ∈ binaryToVector input → 0 ≤ v.x ∧ v.x ≤ 6 ∧ 0 ≤ v.y ∧ v.y ≤ 6) := by
  constructor
  · intro h
    simp [binaryToVectorAux, h]
  · exact mem_binaryToVectorAux_bounds input initDecState v

/-- Witness for C2: from state (0,6) the word 8 (move 2 units up) lands at
y = 8, out of bounds, so that row emits nothing; and the sample (0,2,0)
emitted by decoding [8] from the initial state is within bounds. -/
theorem decoder_drops_oob_witness :
    (binaryToVectorAux ⟨0, 6, 0, 1, 1⟩ [8, 8] =
      binaryToVectorAux (decodeStep ⟨0, 6, 0, 1, 1⟩ 8) [8]) ∧
    (0 ≤ (⟨0, 2, 0⟩ : Vec).x ∧ (⟨0, 2, 0⟩ : Vec).x ≤ 6 ∧
      0 ≤ (⟨0, 2, 0⟩ : Vec).y ∧ (⟨0, 2, 0⟩ : Vec).y ≤ 6) :=
  ⟨(decoder_drops_oob_and_bounds_output ⟨0, 6, 0, 1, 1⟩ 8 [8] ⟨0, 2, 0⟩ [8]).1 (by decide),
   (decoder_drops_oob_and_bounds_output ⟨0, 6, 0, 1, 1⟩ 8 [8] ⟨0, 2, 0⟩ [8]).2 (by decide)⟩

/-- C10: dropping an out-of-bounds sample neither clamps nor resets the
running position — decoding a concatenation continues from the state folded
over the whole first part, emissions or not; concretely, on the word list
[8,8,8,8,2,2,24,8] the position leaves the grid at y = 8, accumulates two
horizontal +2 deltas while out of bounds, and the next emitted sample jumps
from (0,6) to (4,6), more than 2 units apart. -/
theorem decoder_oob_state_accumulates (st : DecState) (ws1 ws2 : List ℕ) :
    (binaryToVectorAux st (ws1 ++ ws2) =
      binaryToVectorAux st ws1 ++ binaryToVectorAux (ws1.foldl decodeStep st) ws2) ∧
    binaryToVector [8, 8, 8, 8, 2, 2, 24, 8] =
      [⟨0, 2, 0⟩, ⟨0, 4, 0⟩, ⟨0, 6, 0⟩, ⟨4, 6, 0⟩] :=
  ⟨binaryToVectorAux_append st ws1 ws2, by decide⟩

/-- C3 counterexample: the single beam-off sample (0,0,0) has no intensity=1
entry, yet `simplifyVector` returns it unchanged instead of the empty
sequence — `simplifyVector` does not trim beam-off runs. -/
theorem simplifyVector_does_not_trim :
    simplifyVector [⟨0, 0, 0⟩] = [⟨0, 0, 0⟩] ∧ (⟨0, 0, 0⟩ : Vec).beam ≠ 1 := by
  decide

/-- C3 (amended): `simplifyVector` only removes consecutive samples identical
in all three fields (its output has no adjacent duplicates); the trimming of
leading and trailing intensity=0 runs is implemented by the separate
`trimBeamOff` function, which `simplifyVector` does not invoke, and
`trimBeamOff` of a sequence with no intensity=1 sample is empty. -/
theorem simplifyVector_dedups_trim_separate (s : List Vec) :
    List.Chain' (· ≠ ·) (simplifyVector s) ∧
    ((∀ v ∈ s, v.beam ≠ 1) → trimBeamOff s = []) := by
  constructor
  · cases s with
    | nil => simp [simplifyVector, deduplicateAdjacent]
    | cons first rest => exact chain_dedupFrom first rest
  · intro h
    have hnone : s.findIdx? (fun v => v.beam == 1) = none := by
      rw [List.findIdx?_eq_none_iff]
      intro v hv
      simpa using h v hv
    simp [trimBeamOff, hnone]

/-- Witness for C3 (amended) at the one-sample beam-off sequence. -/
theorem simplifyVector_dedups_trim_separate_witness :
    List.Chain' (· ≠ ·) (simplifyVector [⟨0, 0, 0⟩]) ∧
    trimBeamOff [(⟨0, 0, 0⟩ : Vec)] = [] :=
  ⟨(simplifyVector_dedups_trim_separate [⟨0, 0, 0⟩]).1,
   (simplifyVector_dedups_trim_separate [⟨0, 0, 0⟩]).2 (by decide)⟩

/-- C9: the simplifier is idempotent, and its output is an order-preserving
subsequence of its input. -/
theorem simplifyVector_idempotent_sublist (s : List Vec) :
    simplifyVector (simplifyVector s) = simplifyVector s ∧
    (simplifyVector s).Sublist s := by
  constructor
  · cases s with
    | nil => rfl
    | cons first rest =>
      simp only [simplifyVector, deduplicateAdjacent]
      rw [dedupFrom_eq_of_chain _ _ (chain_dedupFrom first rest)]
  · cases s with
    | nil => simp [simplifyVector, deduplicateAdjacent]
    | cons first rest =>
      simp only [simplifyVector, deduplicateAdjacent]
      exact (dedupFrom_sublist first rest).cons₂ first

theorem subsampleSteps_length (scaledX scaledY beam : ℚ) (xc yc : BiquadCoeffs)
    (xg yg rz : ℚ) (n : ℕ) : ∀ xs ys zs,
    (subsampleSteps scaledX scaledY beam xc yc xg yg rz n xs ys zs).1.length = n := by
  induction n with
  | zero => intro xs ys zs; rfl
  | succ n ih =>
    intro xs ys zs
    simp only [subsampleSteps, List.length_cons]
    rw [ih]

theorem physicsRows_length (f : ℕ) (xc yc : BiquadCoeffs) (xg yg rz cs : ℚ)
    (l : List (ℚ × ℚ × ℚ)) : ∀ xs ys zs,
    (physicsRows f xc yc xg yg rz cs l xs ys zs).length = l.length * f := by
  induction l with
  | nil => intro xs ys zs; simp [physicsRows]
  | cons p rest ih =>
    intro xs ys zs
    obtain ⟨x, y, beam⟩ := p
    simp only [physicsRows, List.length_append, List.length_cons]
    rw [subsampleSteps_length, ih]
    ring

/-- C4: for every vector-sample sequence (the empty one included), every
subsample factor and every parameter set, the physics pipeline output
length equals (number of raw samples) times subsampleFactor; the empty input
yields the empty output. -/
theorem processCharacterPhysics_length (vectorData : List (ℚ × ℚ × ℚ))
    (subsampleFactor : ℕ) (xyCoeffs : BiquadCoeffs) (retentionZ characterScale : ℚ)
    (options : PhysicsOptions) :
    (processCharacterPhysics vectorData subsampleFactor xyCoeffs retentionZ
        characterScale options).length = vectorData.length * subsampleFactor := by
  cases vectorData with
  | nil => simp [processCharacterPhysics]
  | cons firstPos rest =>
    simp only [processCharacterPhysics]
    rw [physicsRows_length]

/-- C5 counterexample: with cellPixelSize = 16, characterScale = 2 and
originOffsetX = 1 the code scales the origin offset by characterScale times
the pixels-per-unit factor (giving px = 2), while the claim formula scales
it by the factor alone (giving px = 1). -/
theorem scaledToCanvas_ne_claim_at :
    scaledToCanvas 0 0 16 2 1 0 ≠ claimScaledToCanvas 0 0 16 2 1 0 := by
  norm_num [scaledToCanvas, claimScaledToCanvas, BASE_CELL_SIZE, Prod.mk.injEq]

/-- C5 (amended): the coordinate mapper computes pixels-per-unit as
cellPixelSize / (8 times characterScale), scales the input coordinates by
that factor and the origin offset (given in base units) by characterScale
times that factor, and returns px = offsetX + scaledX and
py = cellPixelSize - offsetY - scaledY, as a pure function of its
arguments. -/
theorem scaledToCanvas_formula (x y cellPixelSize characterScale
    originOffsetX originOffsetY : ℚ) :
    scaledToCanvas x y cellPixelSize characterScale originOffsetX originOffsetY =
      (originOffsetX * characterScale * (cellPixelSize / (8 * characterScale)) +
        x * (cellPixelSize / (8 * characterScale)),
       cellPixelSize -
        originOffsetY * characterScale * (cellPixelSize / (8 * characterScale)) -
        y * (cellPixelSize / (8 * characterScale))) := rfl

theorem spotCallsLoop_eq (cps cs ox oy br en : ℚ) (ps : List FilteredPosition) :
    spotCallsLoop cps cs ox oy br en ps =
      (ps.filter (fun p => decide (beamThreshold ≤ p.z))).map (fun p =>
        ((scaledToCanvas p.x p.y cps cs ox oy).1,
         (scaledToCanvas p.x p.y cps cs ox oy).2,
         p.z * br * en)) := by
  induction ps with
  | nil => rfl
  | cons pos rest ih =>
    by_cases hz : pos.z < beamThreshold
    · simp only [spotCallsLoop, List.filter_cons]
      rw [if_pos hz, decide_eq_false (not_le.mpr hz)]
      simpa using ih
    · simp only [spotCallsLoop, List.filter_cons]
      rw [if_neg hz, decide_eq_true (not_lt.mp hz)]
      simpa using ih

/-- C6: every filtered sample whose z is at least the beam threshold is
passed to the accumulator with intensity z times brightness times
(referenceSigma^2 / sigma^2), referenceSigma = 1 and sigma =
beamWidth times sigmaMult; samples below the threshold are skipped. -/
theorem gaussianSpotCalls_intensity (ps : List FilteredPosition)
    (cellPixelSize characterScale originOffsetX originOffsetY beamWidth
    brightness : ℚ) :
    gaussianSpotCalls ps cellPixelSize characterScale originOffsetX
        originOffsetY beamWidth brightness =
      (ps.filter (fun p => decide (beamThreshold ≤ p.z))).map (fun p =>
        ((scaledToCanvas p.x p.y cellPixelSize characterScale originOffsetX
            originOffsetY).1,
         (scaledToCanvas p.x p.y cellPixelSize characterScale originOffsetX
            originOffsetY).2,
         p.z * brightness *
           ((1 * 1) / ((beamWidth * sigmaMult) * (beamWidth * sigmaMult))))) := by
  simp only [gaussianSpotCalls]
  exact spotCallsLoop_eq cellPixelSize characterScale originOffsetX
    originOffsetY brightness _ ps

theorem computeGaussianKernel_sigma (expf : ℚ → ℚ) (s : ℚ) :
    (computeGaussianKernel expf s).sigma = s := rfl

/-- C8 counterexample: request sigma = 1 and then sigma = 2001/2000. The two
sigmas differ by 1/2000 < 0.001, so the second call returns the cached
kernel computed for sigma = 1, which differs from a fresh computation for
2001/2000 (already in its sigma field, and in its radius: 3 versus 4) — the
cached result is not always equivalent to recomputation, and the kernel is
not recomputed at every sigma change. -/
theorem runKernelCalls_stale_cache :
    runKernelCalls expOne none [1, 2001 / 2000] ≠
      [computeGaussianKernel expOne 1,
       computeGaussianKernel expOne (2001 / 2000)] := by
  intro h
  have hlt : |(computeGaussianKernel expOne 1).sigma - (2001 / 2000 : ℚ)| < 1 / 1000 := by
    rw [computeGaussianKernel_sigma, abs_sub_lt_iff]
    norm_num
  simp only [runKernelCalls, getGaussianKernel] at h
  rw [if_pos hlt] at h
  simp only [List.cons.injEq, and_true] at h
  have hsig := congrArg GaussKernel.sigma h.2
  rw [computeGaussianKernel_sigma, computeGaussianKernel_sigma] at hsig
  norm_num at hsig

theorem runKernelCalls_tolerance_aux (expf : ℚ → ℚ) (sigmas : List ℚ) :
    ∀ (cache : Option GaussKernel),
    (cache = none ∨ ∃ s0, cache = some (computeGaussianKernel expf s0)) →
    ∀ (i : ℕ) (s : ℚ), sigmas[i]? = some s →
    ∃ s', |s' - s| < 1 / 1000 ∧
      (runKernelCalls expf cache sigmas)[i]? = some (computeGaussianKernel expf s') := by
  induction sigmas with
  | nil => intro cache _ i s hs; simp at hs
  | cons sigma rest ih =>
    intro cache hc i s hs
    cases i with
    | zero =>
      simp only [List.getElem?_cons_zero, Option.some.injEq] at hs
      subst hs
      rcases hc with hnone | ⟨s0, hsome⟩
      · subst hnone
        refine ⟨sigma, by rw [sub_self, abs_zero]; norm_num, ?_⟩
        simp [runKernelCalls, getGaussianKernel]
      · subst hsome
        by_cases hcl : |(computeGaussianKernel expf s0).sigma - sigma| < 1 / 1000
        · refine ⟨s0, by rwa [computeGaussianKernel_sigma] at hcl, ?_⟩
          simp only [runKernelCalls, getGaussianKernel, List.getElem?_cons_zero]
          rw [if_pos hcl]
        · refine ⟨sigma, by rw [sub_self, abs_zero]; norm_num, ?_⟩
          simp only [runKernelCalls, getGaussianKernel, List.getElem?_cons_zero]
          rw [if_neg hcl]
    | succ i =>
      simp only [List.getElem?_cons_succ] at hs
      have hinv : (getGaussianKernel expf cache sigma).2 = none ∨
          ∃ s0, (getGaussianKernel expf cache sigma).2 =
            some (computeGaussianKernel expf s0) := by
        rcases hc with hnone | ⟨s0, hsome⟩
        · subst hnone
          right
          exact ⟨sigma, rfl⟩
        · subst hsome
          by_cases hcl : |(computeGaussianKernel expf s0).sigma - sigma| < 1 / 1000
          · right
            refine ⟨s0, ?_⟩
            simp only [getGaussianKernel]
            rw [if_pos hcl]
          · right
            refine ⟨sigma, ?_⟩
            simp only [getGaussianKernel]
            rw [if_neg hcl]
      obtain ⟨s', h1, h2⟩ := ih _ hinv i s hs
      refine ⟨s', h1, ?_⟩
      simpa [runKernelCalls] using h2

/-- C8 (amended): starting from an empty cache, every call in a sequence of
`getGaussianKernel` calls returns a kernel equal to a fresh computation for
some sigma within 0.001 of the sigma requested by that call (the cache
tolerance is 0.001; within it the cached kernel is reused, beyond it the
kernel is recomputed for the requested sigma). -/
theorem getGaussianKernel_cache_tolerance (expf : ℚ → ℚ) (sigmas : List ℚ)
    (i : ℕ) (s : ℚ) (hs : sigmas[i]? = some s) :
    ∃ s', |s' - s| < 1 / 1000 ∧
      (runKernelCalls expf none sigmas)[i]? = some (computeGaussianKernel expf s') :=
  runKernelCalls_tolerance_aux expf sigmas none (Or.inl rfl) i s hs

/-- Witness for C8 (amended): the single call with sigma = 1. -/
theorem getGaussianKernel_cache_tolerance_witness :
    ∃ s', |s' - (1 : ℚ)| < 1 / 1000 ∧
      (runKernelCalls expOne none [1])[0]? = some (computeGaussianKernel expOne s') :=
  getGaussianKernel_cache_tolerance expOne [1] 0 1 rfl

theorem row_alias_out {py py2 width px : ℤ} (hpx0 : 0 ≤ px) (hpxw : px < width)
    (hne : py ≠ py2) :
    ¬(0 ≤ py * width + px - py2 * width ∧ py * width + px - py2 * width < width) := by
  intro h
  have hw : 0 < width := lt_of_le_of_lt hpx0 hpxw
  rcases lt_or_gt_of_ne hne with hlt | hgt
  · have h1 : py * width ≤ (py2 - 1) * width :=
      mul_le_mul_of_nonneg_right (by omega) (le_of_lt hw)
    have h2 : (py2 - 1) * width = py2 * width - width := by ring
    omega
  · have h1 : (py2 + 1) * width ≤ py * width :=
      mul_le_mul_of_nonneg_right (by omega) (le_of_lt hw)
    have h2 : (py2 + 1) * width = py2 * width + width := by ring
    omega

theorem gaussAccumRow_apply (buffer : ℤ → ℚ) (width py startX : ℤ) (i : ℚ)
    (ws : List ℚ) (rowBase : ℕ) (n : ℕ) (j : ℤ) :
    gaussAccumRow buffer width py startX i ws rowBase n j =
      buffer j +
        (if 0 ≤ j - (py * width + startX) ∧ j - (py * width + startX) < (n : ℤ) ∧
            0 ≤ j - py * width ∧ j - py * width < width then
          i * ws.getD (rowBase + (j - (py * width + startX)).toNat) 0
        else 0) := by
  induction n with
  | zero =>
    rw [gaussAccumRow, if_neg, add_zero]
    intro h
    omega
  | succ n ih =>
    simp only [gaussAccumRow]
    by_cases hpx : startX + (n : ℤ) < 0 ∨ width ≤ startX + (n : ℤ)
    · rw [if_pos hpx, ih]
      have hiff : (0 ≤ j - (py * width + startX) ∧
          j - (py * width + startX) < ((n + 1 : ℕ) : ℤ) ∧
          0 ≤ j - py * width ∧ j - py * width < width) ↔
          (0 ≤ j - (py * width + startX) ∧ j - (py * width + startX) < (n : ℤ) ∧
          0 ≤ j - py * width ∧ j - py * width < width) := by
        generalize py * width = pw at *
        omega
      rw [if_congr hiff rfl rfl]
    · rw [if_neg hpx]
      by_cases hj : j = py * width + (startX + (n : ℤ))
      · subst hj
        rw [Function.update_same, ih, if_neg, add_zero, if_pos]
        · have hidx : (py * width + (startX + (n : ℤ)) - (py * width + startX)).toNat = n := by
            generalize py * width = pw
            omega
          rw [hidx]
        · constructor
          · generalize py * width = pw; omega
          · refine ⟨by generalize py * width = pw; omega, ?_, ?_⟩
            · generalize py * width = pw; omega
            · generalize py * width = pw; omega
        · intro hc
          generalize py * width = pw at hc
          omega
      · rw [Function.update_noteq hj, ih]
        have hiff : (0 ≤ j - (py * width + startX) ∧
            j - (py * width + startX) < ((n + 1 : ℕ) : ℤ) ∧
            0 ≤ j - py * width ∧ j - py * width < width) ↔
            (0 ≤ j - (py * width + startX) ∧ j - (py * width + startX) < (n : ℤ) ∧
            0 ≤ j - py * width ∧ j - py * width < width) := by
          revert hj
          generalize py * width = pw
          intro hj
          omega
        rw [if_congr hiff rfl rfl]

theorem gaussAccumRows_point (buffer : ℤ → ℚ) (width height startY startX : ℤ)
    (i : ℚ) (ws : List ℚ) (ksz : ℕ) (px py : ℤ)
    (hpx0 : 0 ≤ px) (hpxw : px < width) (hpy0 : 0 ≤ py) (hpyh : py < height) :
    ∀ m : ℕ, gaussAccumRows buffer width height startY startX i ws ksz m (py * width + px) =
      buffer (py * width + px) +
        (if startY ≤ py ∧ py < startY + (m : ℤ) ∧ startX ≤ px ∧ px < startX + (ksz : ℤ) then
          i * ws.getD ((py - startY).toNat * ksz + (px - startX).toNat) 0
        else 0) := by
  intro m
  induction m with
  | zero =>
    rw [gaussAccumRows, if_neg, add_zero]
    intro h
    omega
  | succ m ih =>
    simp only [gaussAccumRows]
    by_cases hpy : startY + (m : ℤ) < 0 ∨ height ≤ startY + (m : ℤ)
    · rw [if_pos hpy, ih]
      have hiff : (startY ≤ py ∧ py < startY + ((m + 1 : ℕ) : ℤ) ∧ startX ≤ px ∧
          px < startX + (ksz : ℤ)) ↔
          (startY ≤ py ∧ py < startY + (m : ℤ) ∧ startX ≤ px ∧ px < startX + (ksz : ℤ)) := by
        omega
      rw [if_congr hiff rfl rfl]
    · rw [if_neg hpy, gaussAccumRow_apply]
      by_cases hpe : py = startY + (m : ℤ)
      · have hd : py * width + px - ((startY + (m : ℤ)) * width + startX) = px - startX := by
          rw [← hpe]; ring
        have hrow : py * width + px - (startY + (m : ℤ)) * width = px := by
          rw [← hpe]; ring
        rw [hd, hrow, ih, if_neg (by omega :
          ¬(startY ≤ py ∧ py < startY + (m : ℤ) ∧ startX ≤ px ∧ px < startX + (ksz : ℤ))),
          add_zero]
        have hiff : (0 ≤ px - startX ∧ px - startX < (ksz : ℤ) ∧ 0 ≤ px ∧ px < width) ↔
            (startY ≤ py ∧ py < startY + ((m + 1 : ℕ) : ℤ) ∧ startX ≤ px ∧
              px < startX + (ksz : ℤ)) := by
          omega
        have hidx : (py - startY).toNat = m := by omega
        rw [hidx, if_congr hiff rfl rfl]
      · have halias := @row_alias_out py (startY + (m : ℤ)) width px hpx0 hpxw hpe
        have hcond : ¬(0 ≤ py * width + px - ((startY + (m : ℤ)) * width + startX) ∧
            py * width + px - ((startY + (m : ℤ)) * width + startX) < (ksz : ℤ) ∧
            0 ≤ py * width + px - (startY + (m : ℤ)) * width ∧
            py * width + px - (startY + (m : ℤ)) * width < width) :=
          fun hc => halias ⟨hc.2.2.1, hc.2.2.2⟩
        rw [if_neg hcond, add_zero, ih]
        have hiff : (startY ≤ py ∧ py < startY + ((m + 1 : ℕ) : ℤ) ∧ startX ≤ px ∧
            px < startX + (ksz : ℤ)) ↔
            (startY ≤ py ∧ py < startY + (m : ℤ) ∧ startX ≤ px ∧ px < startX + (ksz : ℤ)) := by
          omega
        rw [if_congr hiff rfl rfl]

theorem gaussAccumRows_out (buffer : ℤ → ℚ) (width height startY startX : ℤ)
    (i : ℚ) (ws : List ℚ) (ksz : ℕ) (j : ℤ) (hj : j < 0 ∨ width * height ≤ j) :
    ∀ m : ℕ, gaussAccumRows buffer width height startY startX i ws ksz m j = buffer j := by
  intro m
  induction m with
  | zero => rfl
  | succ m ih =>
    simp only [gaussAccumRows]
    by_cases hpy : startY + (m : ℤ) < 0 ∨ height ≤ startY + (m : ℤ)
    · rw [if_pos hpy]
      exact ih
    · rw [if_neg hpy, gaussAccumRow_apply]
      have hcond : ¬(0 ≤ j - ((startY + (m : ℤ)) * width + startX) ∧
          j - ((startY + (m : ℤ)) * width + startX) < (ksz : ℤ) ∧
          0 ≤ j - (startY + (m : ℤ)) * width ∧
          j - (startY + (m : ℤ)) * width < width) := by
        intro hc
        have hw : (0 : ℤ) < width := by omega
        have h1 : (startY + (m : ℤ)) * width ≤ (height - 1) * width :=
          mul_le_mul_of_nonneg_right (by omega) (le_of_lt hw)
        have h2 : (height - 1) * width = height * width - width := by ring
        have h3 : 0 ≤ (startY + (m : ℤ)) * width :=
          mul_nonneg (by omega) (le_of_lt hw)
        have h4 : width * height = height * width := mul_comm _ _
        omega
      rw [if_neg hcond, add_zero]
      exact ih

/-- C7: `accumulateGaussian` adds intensity times weight to exactly those
buffer cells (px, py) inside both the (2r+1) by (2r+1) kernel footprint
around the floored center and the bounds 0 <= px < width, 0 <= py < height;
every other cell keeps its value, and no flat index outside
[0, width times height) is ever written — out-of-bounds kernel cells are
skipped with no wraparound and no clamping to the edge. -/
theorem accumulateGaussian_frame (buffer : ℤ → ℚ) (width height : ℤ) (cx cy : ℚ)
    (intensity : ℚ) (kernel : GaussKernel) (px py : ℤ) :
    (0 ≤ px → px < width → 0 ≤ py → py < height →
      accumulateGaussian buffer width height cx cy intensity kernel (py * width + px) =
        buffer (py * width + px) +
          (if ⌊cx⌋ - (kernel.radius : ℤ) ≤ px ∧ px ≤ ⌊cx⌋ + (kernel.radius : ℤ) ∧
              ⌊cy⌋ - (kernel.radius : ℤ) ≤ py ∧ py ≤ ⌊cy⌋ + (kernel.radius : ℤ) then
            intensity * kernel.weights.getD
              ((py - (⌊cy⌋ - (kernel.radius : ℤ))).toNat * (kernel.radius * 2 + 1) +
                (px - (⌊cx⌋ - (kernel.radius : ℤ))).toNat) 0
          else 0)) ∧
    (∀ j : ℤ, j < 0 ∨ width * height ≤ j →
      accumulateGaussian buffer width height cx cy intensity kernel j = buffer j) := by
  constructor
  · intro h1 h2 h3 h4
    simp only [accumulateGaussian]
    rw [gaussAccumRows_point buffer width height (⌊cy⌋ - (kernel.radius : ℤ))
      (⌊cx⌋ - (kernel.radius : ℤ)) intensity kernel.weights (kernel.radius * 2 + 1)
      px py h1 h2 h3 h4]
    have hiff : (⌊cy⌋ - (kernel.radius : ℤ) ≤ py ∧
        py < ⌊cy⌋ - (kernel.radius : ℤ) + ((kernel.radius * 2 + 1 : ℕ) : ℤ) ∧
        ⌊cx⌋ - (kernel.radius : ℤ) ≤ px ∧
        px < ⌊cx⌋ - (kernel.radius : ℤ) + ((kernel.radius * 2 + 1 : ℕ) : ℤ)) ↔
        (⌊cx⌋ - (kernel.radius : ℤ) ≤ px ∧ px ≤ ⌊cx⌋ + (kernel.radius : ℤ) ∧
        ⌊cy⌋ - (kernel.radius : ℤ) ≤ py ∧ py ≤ ⌊cy⌋ + (kernel.radius : ℤ)) := by
      omega
    rw [if_congr hiff rfl rfl]
  · intro j hj
    simp only [accumulateGaussian]
    exact gaussAccumRows_out buffer width height _ _ intensity kernel.weights _ j hj _

/-- Witness for C7: a radius-0 kernel with weight 1 at center (0,0) of a 2 by
2 buffer adds the full intensity 5 to cell (0,0), and index -1 (outside the
buffer) is untouched. -/
theorem accumulateGaussian_frame_witness :
    accumulateGaussian (fun _ => (0 : ℚ)) 2 2 0 0 5 ⟨[1], 0, 1⟩ 0 = 5 ∧
    accumulateGaussian (fun _ => (0 : ℚ)) 2 2 0 0 5 ⟨[1], 0, 1⟩ (-1) = 0 := by
  constructor
  · have h := (accumulateGaussian_frame (fun _ => (0 : ℚ)) 2 2 0 0 5 ⟨[1], 0, 1⟩ 0 0).1
      (by decide) (by decide) (by decide) (by decide)
    simpa using h
  · have h := (accumulateGaussian_frame (fun _ => (0 : ℚ)) 2 2 0 0 5 ⟨[1], 0, 1⟩ 0 0).2
      (-1) (by decide)
    simpa using h

end DD60
